import Mathlib

/-!
Verification of the `spinny` raw reader-writer spinlock (`src/src/lib.rs`,
`RawRwSpinlock`).  The lock word is an atomic `usize`, modelled as a `Nat`
below `2 ^ 64` with wrapping arithmetic.  Each locking operation is embedded
as a pure function from the current word to the operation's result and the
new word; a labelled transition system with ghost holder counts models
sequences of complete operations for the reachability claims.
-/

namespace Spinny

/-- Modulus of the 64-bit `usize` lock word: every `fetch_add` and `fetch_sub`
on the atomic wraps modulo this value. -/
def wordMod : Nat := 2 ^ 64

/-- `const READER: usize = 1 << 2;` -/
def READER : Nat := 1 <<< 2

/-- `const UPGRADED: usize = 1 << 1;` -/
def UPGRADED : Nat := 1 <<< 1

/-- `const WRITER: usize = 1 << 0;` -/
def WRITER : Nat := 1 <<< 0

/-- New value of the atomic word after a wrapping `fetch_add(k)`. -/
def fetchAdd (w k : Nat) : Nat := (w + k) % wordMod

/-- New value of the atomic word after a wrapping `fetch_sub(k)` (`k ≤ wordMod`). -/
def fetchSub (w k : Nat) : Nat := (w + (wordMod - k)) % wordMod

/-- Reader count stored in the word: the bitfield at and above the `READER`
increment, i.e. the number of reader increments currently in the word. -/
def readerCount (w : Nat) : Nat := w / READER

/-- `try_lock_shared` (lib.rs 79-88): speculatively `fetch_add(READER)`, then
inspect the previous value `w`; if it had `WRITER` or `UPGRADED` set, undo the
increment with `fetch_sub(READER)` and fail, otherwise succeed.  Returns the
boolean result and the word left in the atomic once the call completes. -/
def try_lock_shared (w : Nat) : Bool × Nat :=
  let value := w
  let w1 := fetchAdd w READER
  if value &&& (WRITER ||| UPGRADED) ≠ 0 then
    (false, fetchSub w1 READER)
  else
    (true, w1)

/-- `try_lock_exclusive` (lib.rs 90-94): `compare_exchange(0, WRITER)`. -/
def try_lock_exclusive (w : Nat) : Bool × Nat :=
  if w = 0 then (true, WRITER) else (false, w)

/-- `lock_exclusive` (lib.rs 96-108): spins on `compare_exchange_weak(0, WRITER)`.
With no concurrent activity it completes exactly when the word is `0` (else it
spins forever, modelled as `none`). -/
def lock_exclusive (w : Nat) : Option Nat :=
  if w = 0 then some WRITER else none

/-- `unlock_shared` (lib.rs 110-112): `fetch_sub(READER)`. -/
def unlock_shared (w : Nat) : Nat := fetchSub w READER

/-- `unlock_exclusive` (lib.rs 114-117): `fetch_and(!(WRITER | UPGRADED))`.
On a 64-bit `usize` the mask `!(WRITER | UPGRADED)` is
`(wordMod - 1) - (WRITER ||| UPGRADED)`. -/
def unlock_exclusive (w : Nat) : Nat :=
  w &&& ((wordMod - 1) - (WRITER ||| UPGRADED))

/-- `try_lock_upgradable` (lib.rs 127-129):
`fetch_or(UPGRADED) & (WRITER | UPGRADED) == 0`.  Returns the boolean result
(computed from the previous value `w`) and the new word `w ||| UPGRADED`. -/
def try_lock_upgradable (w : Nat) : Bool × Nat :=
  (w &&& (WRITER ||| UPGRADED) == 0, w ||| UPGRADED)

/-- `try_upgrade` (lib.rs 131-135): `compare_exchange(UPGRADED, WRITER)`. -/
def try_upgrade (w : Nat) : Bool × Nat :=
  if w = UPGRADED then (true, WRITER) else (false, w)

/-- `unlock_upgradable` (lib.rs 151-153): `fetch_sub(UPGRADED)`. -/
def unlock_upgradable (w : Nat) : Nat := fetchSub w UPGRADED

/-- `downgrade` (lib.rs 157-160): `fetch_add(READER)` followed by
`unlock_exclusive`. -/
def downgrade (w : Nat) : Nat := unlock_exclusive (fetchAdd w READER)

/-- State of the lock word together with ghost data tracking outstanding
holds: the number of un-matched successful shared acquisitions, whether an
un-matched (and not yet upgraded) upgradable acquisition exists, and the
number of un-matched exclusive acquisitions. -/
structure LockSt where
  word : Nat
  sharedHolds : Nat
  upgHold : Bool
  exclHolds : Nat

/-- One complete operation of the lock protocol (section 4.1), at operation
granularity.  The `try_*` operations have no precondition; the `unlock_*`,
`try_upgrade` and `downgrade` operations carry the caller-holds preconditions
of the `lock_api` contract as guards on the ghost state.  The blocking forms
(`lock_shared`, `lock_exclusive`, `lock_upgradable`, `upgrade`) complete
exactly as the successful case of the corresponding `try` operation, so they
are subsumed by these constructors. -/
inductive Step : LockSt → LockSt → Prop
  | tryShared (s : LockSt) :
      Step s ⟨(try_lock_shared s.word).2,
              s.sharedHolds + (if (try_lock_shared s.word).1 then 1 else 0),
              s.upgHold, s.exclHolds⟩
  | tryExclusive (s : LockSt) :
      Step s ⟨(try_lock_exclusive s.word).2, s.sharedHolds, s.upgHold,
              s.exclHolds + (if (try_lock_exclusive s.word).1 then 1 else 0)⟩
  | tryUpgradable (s : LockSt) :
      Step s ⟨(try_lock_upgradable s.word).2, s.sharedHolds,
              s.upgHold || (try_lock_upgradable s.word).1, s.exclHolds⟩
  | tryUpgradeStep (s : LockSt) (h : s.upgHold = true) :
      Step s ⟨(try_upgrade s.word).2, s.sharedHolds,
              if (try_upgrade s.word).1 then false else s.upgHold,
              s.exclHolds + (if (try_upgrade s.word).1 then 1 else 0)⟩
  | unlockSharedStep (s : LockSt) (h : 1 ≤ s.sharedHolds) :
      Step s ⟨unlock_shared s.word, s.sharedHolds - 1, s.upgHold, s.exclHolds⟩
  | unlockExclusiveStep (s : LockSt) (h : 1 ≤ s.exclHolds) :
      Step s ⟨unlock_exclusive s.word, s.sharedHolds, s.upgHold, s.exclHolds - 1⟩
  | unlockUpgradableStep (s : LockSt) (h : s.upgHold = true) :
      Step s ⟨unlock_upgradable s.word, s.sharedHolds, false, s.exclHolds⟩
  | downgradeStep (s : LockSt) (h : 1 ≤ s.exclHolds) :
      Step s ⟨downgrade s.word, s.sharedHolds + 1, s.upgHold, s.exclHolds - 1⟩

/-- The all-zero initial state `INIT` (lib.rs 67) with no outstanding holds. -/
def initSt : LockSt := ⟨0, 0, false, 0⟩

/-- `ReachN n s`: state `s` is reachable from `initSt` by `n` complete
operations invoked with their preconditions respected. -/
inductive ReachN : Nat → LockSt → Prop
  | init : ReachN 0 initSt
  | step {n : Nat} {s s' : LockSt} : ReachN n s → Step s s' → ReachN (n + 1) s'

/-- Inductive invariant of the protocol, relating the lock word to the ghost
holder counts.  `b` is the value of the `UPGRADED` bit; it may be set either
by the upgradable holder or as the stray bit that a failed
`try_lock_upgradable` leaves while a writer holds the lock. -/
def Inv (s : LockSt) : Prop :=
  s.exclHolds ≤ 1 ∧
  (s.upgHold = true → s.exclHolds = 0) ∧
  (s.exclHolds = 1 → s.sharedHolds = 0) ∧
  ∃ b, b ≤ 1 ∧
    s.word = 4 * s.sharedHolds + 2 * b + s.exclHolds ∧
    (s.upgHold = true → b = 1) ∧
    (b = 1 → s.upgHold = true ∨ s.exclHolds = 1)

theorem wordMod_eq : wordMod = 18446744073709551616 := by norm_num [wordMod]

theorem READER_eq : READER = 4 := by decide

theorem UPGRADED_eq : UPGRADED = 2 := by decide

theorem WRITER_eq : WRITER = 1 := by decide

theorem WU_eq : WRITER ||| UPGRADED = 3 := by decide

theorem mask_eq : (wordMod - 1) - (WRITER ||| UPGRADED) = 2 ^ 64 - 4 := by
  rw [WU_eq, wordMod_eq]; norm_num

theorem fetchAdd_eq_of_lt {w k : Nat} (h : w + k < wordMod) :
    fetchAdd w k = w + k := Nat.mod_eq_of_lt h

theorem fetchSub_eq_sub {w k : Nat} (hk : k ≤ w) (hw : w < wordMod) :
    fetchSub w k = w - k := by
  have hkM : k ≤ wordMod := le_trans hk (le_of_lt hw)
  unfold fetchSub
  have h1 : w + (wordMod - k) = (w - k) + wordMod := by omega
  rw [h1, Nat.add_mod_right, Nat.mod_eq_of_lt (by omega)]

theorem fetchSub_fetchAdd_cancel {w k : Nat} (hw : w < wordMod) (hk : k ≤ wordMod) :
    fetchSub (fetchAdd w k) k = w := by
  unfold fetchAdd fetchSub
  rw [Nat.mod_add_mod]
  have h1 : w + k + (wordMod - k) = w + wordMod := by omega
  rw [h1, Nat.add_mod_right, Nat.mod_eq_of_lt hw]

theorem and3_eq_mod (w : Nat) : w &&& 3 = w % 4 := by
  have h := Nat.and_pow_two_sub_one_eq_mod w 2
  norm_num at h
  exact h

theorem or_lt_four {c m : Nat} (hc : c < 4) (hm : m < 4) : c ||| m < 4 := by
  interval_cases c <;> interval_cases m <;> decide

theorem split4_and (a : Nat) {c m : Nat} (hc : c < 4) (hm : m < 4) :
    (4 * a + c) &&& m = c &&& m := by
  apply Nat.eq_of_testBit_eq
  intro j
  have h4 : (4 : Nat) * a + c = 2 ^ 2 * a + c := by norm_num
  have hc2 : c < 2 ^ 2 := by simpa using hc
  rw [Nat.testBit_and, Nat.testBit_and, h4, Nat.testBit_mul_pow_two_add a hc2 j]
  by_cases hj : j < 2
  · simp [hj]
  · have hmj : m.testBit j = false := by
      apply Nat.testBit_lt_two_pow
      calc m < 4 := hm
        _ = 2 ^ 2 := by norm_num
        _ ≤ 2 ^ j := Nat.pow_le_pow_right (by norm_num) (by omega)
    simp [hj, hmj]

theorem split4_or (a : Nat) {c m : Nat} (hc : c < 4) (hm : m < 4) :
    (4 * a + c) ||| m = 4 * a + (c ||| m) := by
  have hc2 : c < 2 ^ 2 := by simpa using hc
  have hcm2 : c ||| m < 2 ^ 2 := by simpa using or_lt_four hc hm
  have h1 : (2 : Nat) ^ 2 * a + c = 2 ^ 2 * a ||| c := Nat.mul_add_lt_is_or hc2 a
  have h2 : (2 : Nat) ^ 2 * a + (c ||| m) = 2 ^ 2 * a ||| (c ||| m) :=
    Nat.mul_add_lt_is_or hcm2 a
  have h4 : (4 : Nat) * a = 2 ^ 2 * a := by norm_num
  rw [h4, h1, h2, Nat.lor_assoc]

theorem and_mask_eq (w : Nat) (hw : w < wordMod) :
    w &&& (2 ^ 64 - 4) = 4 * (w / 4) := by
  have h1 : (2 : Nat) ^ 64 - 4 = (2 ^ 62 - 1) <<< 2 := by
    rw [Nat.shiftLeft_eq]; norm_num
  have h2 : 4 * (w / 4) = (w >>> 2) <<< 2 := by
    rw [Nat.shiftRight_eq_div_pow, Nat.shiftLeft_eq]
    norm_num [Nat.mul_comm]
  rw [h1, h2]
  apply Nat.eq_of_testBit_eq
  intro j
  simp only [Nat.testBit_and, Nat.testBit_shiftLeft, Nat.testBit_shiftRight,
    Nat.testBit_two_pow_sub_one]
  by_cases hj2 : j ≥ 2
  · have hadd : 2 + (j - 2) = j := by omega
    by_cases hj64 : j < 64
    · have hjj : j - 2 < 62 := by omega
      simp [hj2, hjj, hadd]
    · have hwj : w < 2 ^ j := by
        calc w < wordMod := hw
          _ = 2 ^ 64 := rfl
          _ ≤ 2 ^ j := Nat.pow_le_pow_right (by norm_num) (by omega)
      have hwb : w.testBit j = false := Nat.testBit_lt_two_pow hwj
      have hjj : ¬(j - 2 < 62) := by omega
      simp [hj2, hjj, hwb, hadd]
  · simp [hj2]

theorem unlock_exclusive_eq (w : Nat) (hw : w < wordMod) :
    unlock_exclusive w = 4 * (w / 4) := by
  rw [unlock_exclusive, mask_eq, and_mask_eq w hw]

theorem lor_two_eq_self_iff (w : Nat) : w ||| 2 = w ↔ w &&& 2 ≠ 0 := by
  obtain ⟨a, c, hc, rfl⟩ : ∃ a c, c < 4 ∧ w = 4 * a + c :=
    ⟨w / 4, w % 4, by omega, by omega⟩
  rw [split4_or a hc (by norm_num), split4_and a hc (by norm_num)]
  have key : c ||| 2 = c ↔ c &&& 2 ≠ 0 := by interval_cases c <;> decide
  constructor
  · intro h
    exact key.mp (by omega)
  · intro h
    have := key.mpr h
    omega

theorem inv_def (w r : Nat) (u : Bool) (x : Nat) :
    Inv ⟨w, r, u, x⟩ ↔
      (x ≤ 1 ∧ (u = true → x = 0) ∧ (x = 1 → r = 0) ∧
        ∃ b, b ≤ 1 ∧ w = 4 * r + 2 * b + x ∧ (u = true → b = 1) ∧
          (b = 1 → u = true ∨ x = 1)) := Iff.rfl

theorem inv_init : Inv initSt := by
  rw [initSt, inv_def]
  exact ⟨by omega, fun _ => rfl, fun _ => rfl, 0, by omega, by omega,
    by intro h; simp at h, by omega⟩

theorem tlu_encoded (r b x : Nat) (hb : b ≤ 1) (hx : x ≤ 1) :
    try_lock_upgradable (4 * r + 2 * b + x) = ((2 * b + x == 0 : Bool), 4 * r + 2 + x) := by
  have h1 : (4 * r + 2 * b + x) &&& (WRITER ||| UPGRADED) = 2 * b + x := by
    rw [WU_eq, and3_eq_mod]; omega
  have hsplit : 4 * r + 2 * b + x = 4 * r + (2 * b + x) := by omega
  have h2 : (4 * r + 2 * b + x) ||| UPGRADED = 4 * r + 2 + x := by
    rw [UPGRADED_eq, hsplit, split4_or r (by omega) (by norm_num)]
    have h3 : (2 * b + x) ||| 2 = 2 + x := by
      interval_cases b <;> interval_cases x <;> decide
    rw [h3]; omega
  rw [try_lock_upgradable, h1, h2]

theorem step_preserve {s s' : LockSt} (hs : Inv s) (hr : s.sharedHolds ≤ 2 ^ 62 - 2)
    (st : Step s s') : Inv s' ∧ s'.sharedHolds ≤ s.sharedHolds + 1 := by
  obtain ⟨hx1, hux, hxr, b, hb1, hword, hub, hbu⟩ := hs
  have hwlt : s.word < wordMod := by rw [wordMod_eq]; omega
  have hRlt : READER ≤ wordMod := by rw [READER_eq, wordMod_eq]; norm_num
  cases st with
  | tryShared =>
    have hand : s.word &&& (WRITER ||| UPGRADED) = 2 * b + s.exclHolds := by
      rw [WU_eq, and3_eq_mod]; omega
    by_cases hcond : 2 * b + s.exclHolds = 0
    · have hb0 : b = 0 := by omega
      have hx0 : s.exclHolds = 0 := by omega
      have hu : s.upgHold = false := by
        cases hu' : s.upgHold
        · rfl
        · exact absurd (hub hu') (by omega)
      have hw4 : s.word + READER < wordMod := by rw [READER_eq, wordMod_eq]; omega
      have hres : try_lock_shared s.word = (true, s.word + 4) := by
        simp only [try_lock_shared, hand]
        rw [if_neg (by omega), fetchAdd_eq_of_lt hw4, READER_eq]
      rw [hres]
      refine ⟨?_, ?_⟩
      · show Inv ⟨s.word + 4, s.sharedHolds + 1, s.upgHold, s.exclHolds⟩
        rw [inv_def]
        exact ⟨by omega, fun _ => hx0, by omega, 0, by omega, by omega,
          by intro h; simp [hu] at h, by omega⟩
      · show s.sharedHolds + 1 ≤ s.sharedHolds + 1
        omega
    · have hres : try_lock_shared s.word = (false, s.word) := by
        simp only [try_lock_shared, hand]
        rw [if_pos (by omega), fetchSub_fetchAdd_cancel hwlt hRlt]
      rw [hres]
      refine ⟨?_, ?_⟩
      · show Inv ⟨s.word, s.sharedHolds, s.upgHold, s.exclHolds⟩
        rw [inv_def]
        exact ⟨hx1, hux, hxr, b, hb1, hword, hub, hbu⟩
      · show s.sharedHolds ≤ s.sharedHolds + 1
        omega
  | tryExclusive =>
    by_cases hw0 : s.word = 0
    · have hres : try_lock_exclusive s.word = (true, WRITER) := by
        simp [try_lock_exclusive, hw0]
      have hr0 : s.sharedHolds = 0 := by omega
      have hb0 : b = 0 := by omega
      have hx0 : s.exclHolds = 0 := by omega
      have hu : s.upgHold = false := by
        cases hu' : s.upgHold
        · rfl
        · exact absurd (hub hu') (by omega)
      rw [hres]
      refine ⟨?_, ?_⟩
      · show Inv ⟨WRITER, s.sharedHolds, s.upgHold, s.exclHolds + 1⟩
        rw [inv_def]
        exact ⟨by omega, by intro h; simp [hu] at h, fun _ => hr0, 0, by omega,
          by rw [WRITER_eq]; omega, by intro h; simp [hu] at h, by omega⟩
      · show s.sharedHolds ≤ s.sharedHolds + 1
        omega
    · have hres : try_lock_exclusive s.word = (false, s.word) := by
        simp [try_lock_exclusive, hw0]
      rw [hres]
      refine ⟨?_, ?_⟩
      · show Inv ⟨s.word, s.sharedHolds, s.upgHold, s.exclHolds + 0⟩
        rw [inv_def]
        exact ⟨by omega, by intro h; exact by rw [hux h], by omega, b, hb1, by omega, hub,
          fun hb' => (hbu hb').imp id (by omega)⟩
      · show s.sharedHolds ≤ s.sharedHolds + 1
        omega
  | tryUpgradable =>
    have hres : try_lock_upgradable s.word =
        ((2 * b + s.exclHolds == 0 : Bool), 4 * s.sharedHolds + 2 + s.exclHolds) := by
      rw [hword]
      exact tlu_encoded s.sharedHolds b s.exclHolds hb1 hx1
    rw [hres]
    by_cases hcond : 2 * b + s.exclHolds = 0
    · have hb0 : b = 0 := by omega
      have hx0 : s.exclHolds = 0 := by omega
      have hu : s.upgHold = false := by
        cases hu' : s.upgHold
        · rfl
        · exact absurd (hub hu') (by omega)
      have hbeq : (2 * b + s.exclHolds == 0 : Bool) = true := by
        rw [hcond]; rfl
      refine ⟨?_, ?_⟩
      · show Inv ⟨4 * s.sharedHolds + 2 + s.exclHolds, s.sharedHolds,
          s.upgHold || (2 * b + s.exclHolds == 0 : Bool), s.exclHolds⟩
        rw [hbeq, hu]
        show Inv ⟨4 * s.sharedHolds + 2 + s.exclHolds, s.sharedHolds, true, s.exclHolds⟩
        rw [inv_def]
        exact ⟨by omega, fun _ => hx0, by omega, 1, by omega, by omega, fun _ => rfl,
          fun _ => Or.inl rfl⟩
      · show s.sharedHolds ≤ s.sharedHolds + 1
        omega
    · have hbeq : (2 * b + s.exclHolds == 0 : Bool) = false := by
        simp only [beq_eq_false_iff_ne, ne_eq]
        omega
      refine ⟨?_, ?_⟩
      · show Inv ⟨4 * s.sharedHolds + 2 + s.exclHolds, s.sharedHolds,
          s.upgHold || (2 * b + s.exclHolds == 0 : Bool), s.exclHolds⟩
        rw [hbeq, Bool.or_false]
        rw [inv_def]
        by_cases hbv : b = 1
        · exact ⟨hx1, hux, hxr, 1, by omega, by omega, fun _ => rfl,
            fun _ => hbu hbv⟩
        · have hb0 : b = 0 := by omega
          have hx' : s.exclHolds = 1 := by omega
          exact ⟨hx1, hux, hxr, 1, by omega, by omega, fun _ => rfl,
            fun _ => Or.inr hx'⟩
      · show s.sharedHolds ≤ s.sharedHolds + 1
        omega
  | tryUpgradeStep h =>
    have hb' : b = 1 := hub h
    have hx0 : s.exclHolds = 0 := hux h
    by_cases hr0 : s.sharedHolds = 0
    · have hres : try_upgrade s.word = (true, WRITER) := by
        have hwu : s.word = UPGRADED := by rw [UPGRADED_eq]; omega
        simp [try_upgrade, hwu]
      rw [hres]
      refine ⟨?_, ?_⟩
      · show Inv ⟨WRITER, s.sharedHolds, false, s.exclHolds + 1⟩
        rw [inv_def]
        exact ⟨by omega, by intro hc; simp at hc, fun _ => hr0, 0, by omega,
          by rw [WRITER_eq]; omega, by intro hc; simp at hc, by omega⟩
      · show s.sharedHolds ≤ s.sharedHolds + 1
        omega
    · have hres : try_upgrade s.word = (false, s.word) := by
        have hwu : s.word ≠ UPGRADED := by rw [UPGRADED_eq]; omega
        simp [try_upgrade, hwu]
      rw [hres]
      refine ⟨?_, ?_⟩
      · show Inv ⟨s.word, s.sharedHolds, s.upgHold, s.exclHolds + 0⟩
        rw [inv_def]
        exact ⟨by omega, fun _ => by omega, by omega, b, hb1, by omega, hub,
          fun hb2 => (hbu hb2).imp id (by omega)⟩
      · show s.sharedHolds ≤ s.sharedHolds + 1
        omega
  | unlockSharedStep h =>
    have hx0 : s.exclHolds = 0 := by
      by_cases hx' : s.exclHolds = 1
      · exact absurd (hxr hx') (by omega)
      · omega
    have hres : unlock_shared s.word = s.word - 4 := by
      rw [unlock_shared, fetchSub_eq_sub (by rw [READER_eq]; omega) hwlt, READER_eq]
    rw [hres]
    refine ⟨?_, ?_⟩
    · show Inv ⟨s.word - 4, s.sharedHolds - 1, s.upgHold, s.exclHolds⟩
      rw [inv_def]
      exact ⟨hx1, hux, by omega, b, hb1, by omega, hub,
        fun hb' => (hbu hb').imp id id⟩
    · show s.sharedHolds - 1 ≤ s.sharedHolds + 1
      omega
  | unlockExclusiveStep h =>
    have hx' : s.exclHolds = 1 := by omega
    have hr0 : s.sharedHolds = 0 := hxr hx'
    have hu : s.upgHold = false := by
      cases hu' : s.upgHold
      · rfl
      · exact absurd (hux hu') (by omega)
    have hres : unlock_exclusive s.word = 0 := by
      rw [unlock_exclusive_eq _ hwlt]; omega
    rw [hres]
    refine ⟨?_, ?_⟩
    · show Inv ⟨0, s.sharedHolds, s.upgHold, s.exclHolds - 1⟩
      rw [inv_def]
      exact ⟨by omega, fun _ => by omega, by omega, 0, by omega, by omega,
        by intro hc; simp [hu] at hc, by omega⟩
    · show s.sharedHolds ≤ s.sharedHolds + 1
      omega
  | unlockUpgradableStep h =>
    have hb' : b = 1 := hub h
    have hx0 : s.exclHolds = 0 := hux h
    have hres : unlock_upgradable s.word = s.word - 2 := by
      rw [unlock_upgradable, fetchSub_eq_sub (by rw [UPGRADED_eq]; omega) hwlt, UPGRADED_eq]
    rw [hres]
    refine ⟨?_, ?_⟩
    · show Inv ⟨s.word - 2, s.sharedHolds, false, s.exclHolds⟩
      rw [inv_def]
      exact ⟨hx1, fun _ => hx0, by omega, 0, by omega, by omega,
        by intro hc; simp at hc, by omega⟩
    · show s.sharedHolds ≤ s.sharedHolds + 1
      omega
  | downgradeStep h =>
    have hx' : s.exclHolds = 1 := by omega
    have hr0 : s.sharedHolds = 0 := hxr hx'
    have hu : s.upgHold = false := by
      cases hu' : s.upgHold
      · rfl
      · exact absurd (hux hu') (by omega)
    have hw4 : s.word + READER < wordMod := by rw [READER_eq, wordMod_eq]; omega
    have hres : downgrade s.word = 4 := by
      rw [downgrade, fetchAdd_eq_of_lt hw4, READER_eq,
        unlock_exclusive_eq _ (by rw [wordMod_eq]; omega)]
      omega
    rw [hres]
    refine ⟨?_, ?_⟩
    · show Inv ⟨4, s.sharedHolds + 1, s.upgHold, s.exclHolds - 1⟩
      rw [inv_def]
      exact ⟨by omega, fun _ => by omega, by omega, 0, by omega, by omega,
        by intro hc; simp [hu] at hc, by omega⟩
    · show s.sharedHolds + 1 ≤ s.sharedHolds + 1
      omega

theorem sub4_and (w : Nat) {m : Nat} (h4 : 4 ≤ w) (hm : m < 4) :
    (w - 4) &&& m = w &&& m := by
  obtain ⟨a, c, hclt, rfl⟩ : ∃ a c, c < 4 ∧ w = 4 * a + c :=
    ⟨w / 4, w % 4, by omega, by omega⟩
  have hsub : 4 * a + c - 4 = 4 * (a - 1) + c := by omega
  rw [hsub, split4_and (a - 1) hclt hm, split4_and a hclt hm]

theorem mul4_and_low (q : Nat) {m : Nat} (hm : m < 4) : (4 * q) &&& m = 0 := by
  have h0 : 4 * q = 4 * q + 0 := by omega
  rw [h0, split4_and q (by norm_num) hm, Nat.zero_and]

theorem reachN_inv {n : Nat} {s : LockSt} (h : ReachN n s) :
    n < 2 ^ 62 → Inv s ∧ s.sharedHolds ≤ n := by
  induction h with
  | init => exact fun _ => ⟨inv_init, Nat.le_refl 0⟩
  | step hre hst ih =>
    intro hn
    obtain ⟨hinv, hrn⟩ := ih (by omega)
    obtain ⟨hinv', hshared⟩ := step_preserve hinv (by omega) hst
    exact ⟨hinv', by omega⟩

/-- C1: in every state of the lock word reachable from the initial all-zero
`INIT` state by any sequence of the operations of section 4.1 invoked with
their preconditions respected, the `WRITER` bit and a nonzero reader count are
never simultaneously set, and the `WRITER` bit is never set by two un-matched
exclusive acquisitions at once (the ghost count of un-matched exclusive
acquisitions never exceeds one).  The trace-length bound keeps the reader
field of the 64-bit word away from its wrap-around point. -/
theorem c1_mutual_exclusion {n : Nat} {s : LockSt} (hn : n < 2 ^ 62)
    (hreach : ReachN n s) :
    (s.word &&& WRITER = 0 ∨ readerCount s.word = 0) ∧ s.exclHolds ≤ 1 := by
  obtain ⟨⟨hx1, hux, hxr, b, hb1, hword, hub, hbu⟩, hrn⟩ := reachN_inv hreach hn
  refine ⟨?_, hx1⟩
  rw [WRITER_eq, readerCount, READER_eq]
  rw [Nat.and_one_is_mod]
  by_cases hx : s.exclHolds = 1
  · right
    have hr0 := hxr hx
    omega
  · left
    omega

theorem c1_witness :
    0 < 2 ^ 62 ∧
      ((initSt.word &&& WRITER = 0 ∨ readerCount initSt.word = 0) ∧
        initSt.exclHolds ≤ 1) :=
  ⟨by norm_num, c1_mutual_exclusion (by norm_num) ReachN.init⟩

/-- C2 counterexample: from the word `1` (only `WRITER` set, `UPGRADED`
clear), `try_lock_upgradable` fails, yet the word after the call is
`1 ||| UPGRADED = 3`, not the pre-call word `1`: a failed call does change the
state word, refuting the claim that failure always leaves it unchanged. -/
theorem c2_counterexample :
    (try_lock_upgradable 1).1 = false ∧ (try_lock_upgradable 1).2 ≠ 1 := by
  decide

/-- C2 amended: when `try_lock_upgradable` fails, the word after the call is
the previous word with `UPGRADED` or-ed in; this equals the previous word
exactly when `UPGRADED` was already set (setting an already-set bit is a
no-op).  When the failure is due to `WRITER` alone, the call newly sets the
`UPGRADED` bit. -/
theorem c2_failure_state (w : Nat) (_hfail : (try_lock_upgradable w).1 = false) :
    (try_lock_upgradable w).2 = w ||| UPGRADED ∧
      ((try_lock_upgradable w).2 = w ↔ w &&& UPGRADED ≠ 0) := by
  refine ⟨rfl, ?_⟩
  show w ||| UPGRADED = w ↔ w &&& UPGRADED ≠ 0
  rw [UPGRADED_eq]
  exact lor_two_eq_self_iff w

theorem c2_witness :
    (try_lock_upgradable 2).1 = false ∧
      ((try_lock_upgradable 2).2 = 2 ||| UPGRADED ∧
        ((try_lock_upgradable 2).2 = 2 ↔ (2 : Nat) &&& UPGRADED ≠ 0)) :=
  ⟨by decide, c2_failure_state 2 (by decide)⟩
/-- C3 counterexample: at the saturated word `2 ^ 64 - 4` (reader field full,
`WRITER` and `UPGRADED` clear), `try_lock_shared` succeeds, but the
`fetch_add` wraps the 64-bit word to `0`, so the reader count afterwards is
`0`, not one increment higher than before the call.  This refutes the claim
at one (astronomical) lock-word state. -/
theorem c3_counterexample :
    (try_lock_shared (2 ^ 64 - 4)).1 = true ∧
      readerCount (try_lock_shared (2 ^ 64 - 4)).2 ≠ readerCount (2 ^ 64 - 4) + 1 := by
  have hand : (2 ^ 64 - 4 : Nat) &&& (WRITER ||| UPGRADED) = 0 := by
    rw [WU_eq, and3_eq_mod]; norm_num
  have hres : try_lock_shared (2 ^ 64 - 4) = (true, 0) := by
    simp only [try_lock_shared, hand]
    rw [if_neg (by omega)]
    simp only [fetchAdd]
    rw [READER_eq, wordMod_eq]
    norm_num
  rw [hres]
  constructor
  · rfl
  · show readerCount 0 ≠ readerCount (2 ^ 64 - 4) + 1
    rw [readerCount, readerCount, READER_eq]
    norm_num

/-- C3 amended: for every lock-word state, `try_lock_shared` returns `true`
iff the pre-increment value had neither the `WRITER` bit nor the `UPGRADED`
bit set; on success, provided the reader field is not saturated
(`w + READER < 2 ^ 64`), the reader count is one increment higher than before
the call; on failure the speculative increment is undone by the subtract and
the word is restored. -/
theorem c3_success_iff (w : Nat) (hw : w < wordMod) :
    ((try_lock_shared w).1 = true ↔ (w &&& WRITER = 0 ∧ w &&& UPGRADED = 0)) ∧
      ((try_lock_shared w).1 = true → w + READER < wordMod →
        readerCount (try_lock_shared w).2 = readerCount w + 1) ∧
      ((try_lock_shared w).1 = false → (try_lock_shared w).2 = w) := by
  have hRlt : READER ≤ wordMod := by rw [READER_eq, wordMod_eq]; norm_num
  obtain ⟨a, c, hclt, rfl⟩ : ∃ a c, c < 4 ∧ w = 4 * a + c :=
    ⟨w / 4, w % 4, by omega, by omega⟩
  have hand3 : (4 * a + c) &&& (WRITER ||| UPGRADED) = c := by
    rw [WU_eq, and3_eq_mod]; omega
  have hand1 : (4 * a + c) &&& WRITER = c &&& 1 := by
    rw [WRITER_eq, split4_and a hclt (by norm_num)]
  have hand2 : (4 * a + c) &&& UPGRADED = c &&& 2 := by
    rw [UPGRADED_eq, split4_and a hclt (by norm_num)]
  have hkey : (c &&& 1 = 0 ∧ c &&& 2 = 0) ↔ c = 0 := by
    interval_cases c <;> decide
  by_cases hc0 : c = 0
  · have hres : try_lock_shared (4 * a + c) = (true, fetchAdd (4 * a + c) READER) := by
      simp only [try_lock_shared, hand3]
      rw [if_neg (by omega)]
    rw [hres]
    refine ⟨?_, ?_, ?_⟩
    · rw [hand1, hand2, hkey]
      simp [hc0]
    · intro _ hbound
      rw [fetchAdd_eq_of_lt hbound, readerCount, readerCount, READER_eq]
      omega
    · intro hfalse
      simp at hfalse
  · have hres : try_lock_shared (4 * a + c) = (false, 4 * a + c) := by
      simp only [try_lock_shared, hand3]
      rw [if_pos hc0, fetchSub_fetchAdd_cancel hw hRlt]
    rw [hres]
    refine ⟨?_, ?_, fun _ => rfl⟩
    · rw [hand1, hand2, hkey]
      simp [hc0]
    · intro htrue
      simp at htrue

theorem c3_witness :
    (0 : Nat) < wordMod ∧
      (((try_lock_shared 0).1 = true ↔
          ((0 : Nat) &&& WRITER = 0 ∧ (0 : Nat) &&& UPGRADED = 0)) ∧
        ((try_lock_shared 0).1 = true → 0 + READER < wordMod →
          readerCount (try_lock_shared 0).2 = readerCount 0 + 1) ∧
        ((try_lock_shared 0).1 = false → (try_lock_shared 0).2 = 0)) :=
  ⟨by decide, c3_success_iff 0 (by decide)⟩

/-- C4: for every lock-word state in which `WRITER` or `UPGRADED` is set,
`try_lock_shared` returns `false` and, once its rollback `fetch_sub`
completes with no interleaved operations, the state word equals exactly its
value immediately before the call. -/
theorem c4_idempotent_failure (w : Nat) (hw : w < wordMod)
    (h : w &&& WRITER ≠ 0 ∨ w &&& UPGRADED ≠ 0) :
    (try_lock_shared w).1 = false ∧ (try_lock_shared w).2 = w := by
  have hRlt : READER ≤ wordMod := by rw [READER_eq, wordMod_eq]; norm_num
  obtain ⟨a, c, hclt, rfl⟩ : ∃ a c, c < 4 ∧ w = 4 * a + c :=
    ⟨w / 4, w % 4, by omega, by omega⟩
  have hand3 : (4 * a + c) &&& (WRITER ||| UPGRADED) = c := by
    rw [WU_eq, and3_eq_mod]; omega
  have hand1 : (4 * a + c) &&& WRITER = c &&& 1 := by
    rw [WRITER_eq, split4_and a hclt (by norm_num)]
  have hand2 : (4 * a + c) &&& UPGRADED = c &&& 2 := by
    rw [UPGRADED_eq, split4_and a hclt (by norm_num)]
  have hc0 : c ≠ 0 := by
    rcases h with h | h
    · rw [hand1] at h
      interval_cases c <;> simp_all
    · rw [hand2] at h
      interval_cases c <;> simp_all
  have hres : try_lock_shared (4 * a + c) = (false, 4 * a + c) := by
    simp only [try_lock_shared, hand3]
    rw [if_pos hc0, fetchSub_fetchAdd_cancel hw hRlt]
  rw [hres]
  exact ⟨rfl, rfl⟩

theorem c4_witness :
    ((1 : Nat) &&& WRITER ≠ 0 ∨ (1 : Nat) &&& UPGRADED ≠ 0) ∧
      (try_lock_shared 1).1 = false ∧ (try_lock_shared 1).2 = 1 :=
  ⟨Or.inl (by decide), c4_idempotent_failure 1 (by decide) (Or.inl (by decide))⟩

/-- C5: `try_lock_exclusive` succeeds iff the state word is exactly zero, in
which case the new state is exactly the `WRITER` bit; otherwise it returns
`false` and leaves the state word unchanged. -/
theorem c5_try_lock_exclusive (w : Nat) :
    ((try_lock_exclusive w).1 = true ↔ w = 0) ∧
      (try_lock_exclusive w).2 = (if w = 0 then WRITER else w) := by
  unfold try_lock_exclusive
  by_cases hw0 : w = 0 <;> simp [hw0]

theorem c5_witness :
    ((try_lock_exclusive 0).1 = true ↔ (0 : Nat) = 0) ∧
      (try_lock_exclusive 0).2 = (if (0 : Nat) = 0 then WRITER else 0) :=
  c5_try_lock_exclusive 0

/-- C6: under the precondition that the `UPGRADED` bit is set (the caller
holds the upgradable-read lock), `try_upgrade` succeeds iff the state word
equals exactly `UPGRADED` (no reader bits, no writer bit), transitioning it
to exactly `WRITER`; whenever any plain reader is still active (nonzero
reader count) it fails and leaves the state word unchanged. -/
theorem c6_try_upgrade (w : Nat) (_hpre : w &&& UPGRADED ≠ 0) :
    ((try_upgrade w).1 = true ↔ w = UPGRADED) ∧
      (try_upgrade w).2 = (if w = UPGRADED then WRITER else w) ∧
      (readerCount w ≠ 0 → (try_upgrade w).1 = false ∧ (try_upgrade w).2 = w) := by
  unfold try_upgrade
  by_cases hwu : w = UPGRADED
  · refine ⟨by simp [hwu], by simp [hwu], ?_⟩
    intro hrc
    exfalso
    apply hrc
    rw [hwu, UPGRADED_eq, readerCount, READER_eq]
  · refine ⟨by simp [hwu], by simp [hwu], fun _ => by simp [hwu]⟩

theorem c6_witness : ((2 : Nat) &&& UPGRADED ≠ 0) ∧ (try_upgrade 2).1 = true :=
  ⟨by decide, ((c6_try_upgrade 2 (by decide)).1).mpr (by decide)⟩

/-- C7: starting from the unlocked all-zero state with no concurrent
activity, `lock_exclusive`, then `downgrade`, then `unlock_shared` returns
the state word to exactly its value before `lock_exclusive`. -/
theorem c7_round_trip :
    (lock_exclusive 0).map (fun w1 => unlock_shared (downgrade w1)) = some 0 := by
  have h1 : lock_exclusive 0 = some WRITER := by simp [lock_exclusive]
  have h2 : downgrade WRITER = 4 := by
    rw [WRITER_eq, downgrade,
      fetchAdd_eq_of_lt (by rw [READER_eq, wordMod_eq]; norm_num), READER_eq,
      unlock_exclusive_eq _ (by rw [wordMod_eq]; norm_num)]
  have h3 : unlock_shared 4 = 0 := by
    rw [unlock_shared,
      fetchSub_eq_sub (by norm_num [READER_eq]) (by rw [wordMod_eq]; norm_num),
      READER_eq]
  simp [h1, h2, h3]
/-- C8: under the precondition that the reader count is at least one (the
caller holds a shared lock), `unlock_shared` decreases the reader count by
exactly one increment and leaves the `WRITER` and `UPGRADED` bits
unchanged. -/
theorem c8_unlock_shared (w : Nat) (hw : w < wordMod) (hr : readerCount w ≠ 0) :
    readerCount w = readerCount (unlock_shared w) + 1 ∧
      unlock_shared w &&& WRITER = w &&& WRITER ∧
      unlock_shared w &&& UPGRADED = w &&& UPGRADED := by
  have h4 : 4 ≤ w := by
    rw [readerCount, READER_eq] at hr
    omega
  have hres : unlock_shared w = w - 4 := by
    rw [unlock_shared, fetchSub_eq_sub (by rw [READER_eq]; omega) hw, READER_eq]
  rw [hres]
  refine ⟨?_, ?_, ?_⟩
  · rw [readerCount, readerCount, READER_eq]
    omega
  · rw [WRITER_eq]
    exact sub4_and w h4 (by norm_num)
  · rw [UPGRADED_eq]
    exact sub4_and w h4 (by norm_num)

theorem c8_witness :
    (6 : Nat) < wordMod ∧ readerCount 6 ≠ 0 ∧
      readerCount 6 = readerCount (unlock_shared 6) + 1 :=
  ⟨by decide, by decide, (c8_unlock_shared 6 (by decide) (by decide)).1⟩

/-- C9: for every lock-word state, `unlock_exclusive` clears both the
`WRITER` bit and the `UPGRADED` bit in its single `fetch_and` and leaves the
reader-count bitfield unchanged. -/
theorem c9_unlock_exclusive (w : Nat) (hw : w < wordMod) :
    unlock_exclusive w &&& WRITER = 0 ∧ unlock_exclusive w &&& UPGRADED = 0 ∧
      readerCount (unlock_exclusive w) = readerCount w := by
  rw [unlock_exclusive_eq w hw]
  refine ⟨?_, ?_, ?_⟩
  · rw [WRITER_eq]
    exact mul4_and_low _ (by norm_num)
  · rw [UPGRADED_eq]
    exact mul4_and_low _ (by norm_num)
  · rw [readerCount, readerCount, READER_eq]
    omega

theorem c9_witness :
    (7 : Nat) < wordMod ∧
      (unlock_exclusive 7 &&& WRITER = 0 ∧ unlock_exclusive 7 &&& UPGRADED = 0 ∧
        readerCount (unlock_exclusive 7) = readerCount 7) :=
  ⟨by decide, c9_unlock_exclusive 7 (by decide)⟩

/-- C10: for every lock-word state, `try_lock_exclusive`,
`try_lock_upgradable`, `unlock_upgradable` (under its precondition that the
`UPGRADED` bit is set) and `unlock_exclusive` leave the reader-count
bitfield (all bits at and above the `READER` increment) unchanged, whether
the operation succeeds or fails. -/
theorem c10_reader_frame (w : Nat) (hw : w < wordMod) :
    readerCount (try_lock_exclusive w).2 = readerCount w ∧
      readerCount (try_lock_upgradable w).2 = readerCount w ∧
      (w &&& UPGRADED ≠ 0 → readerCount (unlock_upgradable w) = readerCount w) ∧
      readerCount (unlock_exclusive w) = readerCount w := by
  refine ⟨?_, ?_, ?_, ?_⟩
  · unfold try_lock_exclusive
    by_cases hw0 : w = 0
    · simp only [hw0, if_pos]
      decide
    · simp [hw0]
  · show readerCount (w ||| UPGRADED) = readerCount w
    rw [UPGRADED_eq]
    obtain ⟨a, c, hclt, rfl⟩ : ∃ a c, c < 4 ∧ w = 4 * a + c :=
      ⟨w / 4, w % 4, by omega, by omega⟩
    rw [split4_or a hclt (by norm_num), readerCount, readerCount, READER_eq]
    have hlt : c ||| 2 < 4 := or_lt_four hclt (by norm_num)
    omega
  · intro hpre
    obtain ⟨a, c, hclt, rfl⟩ : ∃ a c, c < 4 ∧ w = 4 * a + c :=
      ⟨w / 4, w % 4, by omega, by omega⟩
    rw [UPGRADED_eq, split4_and a hclt (by norm_num)] at hpre
    have h2c : 2 ≤ c := by
      by_contra hcon
      apply hpre
      interval_cases c <;> simp_all
    have hres : unlock_upgradable (4 * a + c) = 4 * a + c - 2 := by
      rw [unlock_upgradable, fetchSub_eq_sub (by rw [UPGRADED_eq]; omega) hw,
        UPGRADED_eq]
    rw [hres, readerCount, readerCount, READER_eq]
    omega
  · rw [unlock_exclusive_eq w hw, readerCount, readerCount, READER_eq]
    omega

theorem c10_witness :
    (6 : Nat) < wordMod ∧ ((6 : Nat) &&& UPGRADED ≠ 0 ∧
      readerCount (unlock_upgradable 6) = readerCount 6) :=
  ⟨by decide, by decide, (c10_reader_frame 6 (by decide)).2.2.1 (by decide)⟩
end Spinny
